import Mathlib

/-!
# Verification of the ipfs-log core against its specification

This file gives a shallow embedding, in Lean 4, of the data model and the
operations of the ipfs-log repository (src/src/log.js — the newer of the two
concatenated revisions, at the line ranges cited by the claims —
src/src/entry-collection.js and the Entry module in src/unnamed/part_004),
together with theorems settling the specification claims about them.

Modelling conventions:

* JS strings are `String`, JS numbers holding sequence numbers are `Nat`
  (with `Int` where the code produces `-1`), arrays are `List`.
* The content-addressed block store is abstracted by a `put` function from
  the serialized image to the digest string; the code never inspects digests
  beyond equality and ordering.
* `Array.prototype.sort(cmp)` with a comparator returning booleans (as
  everywhere in this code base) coerces `false → 0`, `true → 1`, so the
  underlying in-place insertion sort shifts an element exactly while the
  comparator is truthy.  `jsSort` below is that algorithm: a stable
  insertion sort that moves an element past exactly those elements for
  which the comparator returns `true`.
* JS objects used as string-keyed dictionaries are modelled as functions
  `String → Option _` built by the same sequence of updates as the source.
  Objects with integer-like keys enumerate those keys in ascending numeric
  order under `Object.keys`, which is modelled by keeping the association
  list sorted by its numeric key.
-/

/-- An ipfs-log entry, per src/unnamed/part_004 (`Entry.create`): the persisted
fields id, seq, payload, next plus the post-hoc digest `hash`.  `id2` models the
extra property that `EntryCollection.sort` writes onto entry objects
(src/src/entry-collection.js line 72); it is `none` until then. -/
structure Entry where
  hash : String
  id : String
  seq : Nat
  payload : String
  next : List String
  id2 : Option String := none
deriving DecidableEq, Repr

/-- A log value, per the `Log` class of src/src/log.js (second revision,
lines 444-525): an id, the ordered entry list and the heads (digests). -/
structure Log where
  id : String
  items : List Entry
  heads : List String
deriving DecidableEq, Repr

/-- JS insertion step on the reversed sorted run: the incoming element walks
from the back of the run past exactly the elements for which the comparator
returns true (comparator value coerced to a number, shift while `> 0`). -/
def jsInsertBack (g : α → α → Bool) (x : α) : List α → List α
  | [] => [x]
  | y :: ys => if g y x then y :: jsInsertBack g x ys else x :: y :: ys

/-- Model of `Array.prototype.sort` with a boolean comparator (see the header):
a stable insertion sort that moves an element past exactly those elements for
which the comparator is truthy. -/
def jsSort (g : α → α → Bool) (l : List α) : List α :=
  (l.foldl (fun acc x => jsInsertBack g x acc) []).reverse

/-- `Array.prototype.findIndex`, returning `-1` when no element matches. -/
def jsFindIndex (p : α → Bool) (l : List α) : Int :=
  match l.findIdx? p with
  | some i => (i : Int)
  | none => -1

/-- JS `<` on two strings: lexicographic by code unit, which for the ids and
digests this code produces coincides with the codepoint order of `String.lt`
(stated on the character lists so that the kernel can evaluate it on
literals; `jsStrLt a b = true ↔ a < b` is proved below). -/
def jsStrLt (a b : String) : Bool :=
  decide (a.data < b.data)

/-- JS number coercion of a decimal key string (the chain-map keys are the
decimal renderings of sequence numbers). -/
def strToNum (s : String) : Nat :=
  s.data.foldl (fun acc c => acc * 10 + (c.toNat - 48)) 0

namespace Entry

/-- `Entry.hasChild(entry1, entry2)`: `entry1.next.indexOf(entry2.hash) > -1`
(src/unnamed/part_004). -/
def hasChild (entry1 entry2 : Entry) : Bool :=
  entry1.next.contains entry2.hash

/-- `Entry.hasParent(entry1, entry2)` is an alias of `hasChild`
(src/unnamed/part_004). -/
def hasParent (entry1 entry2 : Entry) : Bool :=
  hasChild entry1 entry2

/-- `Entry.isEqual(a, b)`: digest equality (src/unnamed/part_004). -/
def isEqual (a b : Entry) : Bool :=
  a.hash = b.hash

/-- `Entry.findSiblings(entry, entries)` (src/unnamed/part_004): the entries
having `entry` as a parent, passed through `.sort((a, b) => a.id < b.id)` and
then `.sort((a, b) => a.seq < b.seq)`.  The `.map(...).filter(...)` pair is a
`filterMap`. -/
def findSiblings (entry : Entry) (entries : List Entry) : List Entry :=
  jsSort (fun a b => decide (a.seq < b.seq))
    (jsSort (fun a b => jsStrLt a.id b.id)
      (entries.filterMap (fun e => if hasParent e entry then some e else none)))

/-- The JSON value grammar needed for the persisted entry image. -/
inductive JVal where
  | null : JVal
  | str : String → JVal
  | num : Nat → JVal
  | arr : List String → JVal
deriving DecidableEq, Repr

/-- A reference passed in the `next` argument of `Entry.create`: either an
entry object or a digest string. -/
inductive NextRef where
  | entryRef : Entry → NextRef
  | hashRef : String → NextRef
deriving DecidableEq, Repr

/-- The `next` normalization in `Entry.create` (src/unnamed/part_004 lines
27-28): drop nil elements (impossible here, every `NextRef` is a value) and
replace entry objects by their digests (`e.hash ? e.hash : e`; digests are
taken non-empty, as produced by any real block store). -/
def normNext (next : List NextRef) : List String :=
  next.map (fun r => match r with
    | .entryRef e => e.hash
    | .hashRef s => s)

/-- The object handed to `JSON.stringify` by `Entry.toMultihash` when called
from `Entry.create` (src/unnamed/part_004 lines 30-43): field order as written
in the source, with `hash` still `null` because the digest is assigned only
after persistence. -/
def entryImage (id : String) (seq : Nat) (payload : String) (next : List String) :
    List (String × JVal) :=
  [("hash", JVal.null), ("id", JVal.str id), ("seq", JVal.num seq),
   ("payload", JVal.str payload), ("next", JVal.arr next)]

/-- `Entry.create(ipfs, id, seq, data, next)` (src/unnamed/part_004 lines
17-43): normalize `next`, build the record with a null hash, persist its image
through the store (abstracted by `put`) and install the returned digest.  The
defined-ness validations on `ipfs`, `id`, `seq` and `data` cannot fail here
because every Lean value is defined. -/
def create (put : List (String × JVal) → String) (id : String) (seq : Nat)
    (payload : String) (next : List NextRef) : Entry :=
  let nexts := normNext next
  { hash := put (entryImage id seq payload nexts)
    id := id
    seq := seq
    payload := payload
    next := nexts }

end Entry

namespace EntryCollection

/-- `EntryCollection.getLatestSeqNumber(entries)` (src/src/entry-collection.js
lines 7-12): the maximum `seq`, starting from `-1`. -/
def getLatestSeqNumber (entries : List Entry) : Int :=
  entries.foldl (fun res e => if (e.seq : Int) > res then (e.seq : Int) else res) (-1)

/-- `EntryCollection.findHeads(entries)` (src/src/entry-collection.js lines
156-165): build the referenced-digest dictionary, keep the entries whose hash
is not referenced, and order them with `.sort((a, b) => a.id > b.id)`. -/
def findHeads (entries : List Entry) : List Entry :=
  let items : String → Option String :=
    entries.foldl
      (fun res e => e.next.foldl (fun res h k => if k = h then some e.hash else res k) res)
      (fun _ => none)
  jsSort (fun a b => jsStrLt b.id a.id)
    (entries.filter (fun f => (items f.hash).isNone))

/-- The reverse index of `findTails`: for every digest, the entries whose
`next` references it, accumulated in input order. -/
def buildRevIdx (entries : List Entry) : String → List Entry :=
  entries.foldl
    (fun m e => e.next.foldl (fun m a k => if k = a then m a ++ [e] else m k) m)
    (fun _ => [])

/-- The `hashes` dictionary of `findTails`: membership of a digest among the
input entries. -/
def buildHashSet (entries : List Entry) : String → Bool :=
  entries.foldl (fun h e k => if k = e.hash then true else h k) (fun _ => false)

/-- The `nexts` accumulator of `findTails`: every `next` reference, in input
order. -/
def collectNexts (entries : List Entry) : List String :=
  entries.foldl (fun acc e => acc ++ e.next) []

/-- The dedup-by-hash push of the `findTails` reduce. -/
def pushUnique (res : List Entry) (e : Entry) : List Entry :=
  if res.any (fun a => a.hash = e.hash) then res else res ++ [e]

/-- The first half of `findTails`: for every reference not present among the
input hashes (in `nexts` order), push the entries of its reverse-index slot,
deduplicated by hash. -/
def findTailsMissing (entries : List Entry) : List Entry :=
  ((collectNexts entries).filter (fun h => buildHashSet entries h = false)).foldl
    (fun res val => (buildRevIdx entries val).foldl pushUnique res)
    []

/-- `EntryCollection.findTails(entries)` (src/src/entry-collection.js lines
189-219): entries referencing a digest that is not in the input (deduplicated
by hash, in order of first missing reference), followed by the entries with an
empty `next`.  The reverse index, hash dictionary and `nexts` accumulator are
built by the folds above, exactly as in the source. -/
def findTails (entries : List Entry) : List Entry :=
  findTailsMissing entries ++ entries.filter (fun e => e.next.length = 0)

/-- The key under which `EntryCollection.sort` indexes an entry's chain:
`entry.id2`.  A JS property access with an `undefined` key uses the string
rendering of `undefined`; in every run of `sort` the field has been set by
`processEntry` first. -/
def id2key (e : Entry) : String :=
  e.id2.getD "undefined"

/-- The per-chain map `seq → hash` inside the sorting index, kept sorted by
its numeric key (JS objects enumerate integer-like keys in ascending numeric
order).  Insertion overwrites an existing key. -/
def smapInsert : List (Nat × String) → Nat → String → List (Nat × String)
  | [], k, v => [(k, v)]
  | (k', v') :: rest, k, v =>
    if k < k' then (k, v) :: (k', v') :: rest
    else if k = k' then (k, v) :: rest
    else (k', v') :: smapInsert rest k v

/-- `delete index[entry.id2][entry.seq]`. -/
def smapErase (m : List (Nat × String)) (k : Nat) : List (Nat × String) :=
  m.filter (fun p => p.1 ≠ k)

/-- A value of the sorting index of `EntryCollection.sort`: the single JS
object holds both `hash → entry` bindings and `id → (seq → hash)` maps. -/
inductive IndexVal where
  | ent : Entry → IndexVal
  | smap : List (Nat × String) → IndexVal
deriving DecidableEq

/-- The sorting index dictionary. -/
abbrev IndexFun := String → Option IndexVal

/-- The chain map held in an index slot: a missing slot reads as a fresh
object; an entry-valued slot (an id colliding with a hash) is an unreachable
corner: the JS code would write a numeric property onto that entry object,
which cannot happen under the id/hash disjointness assumed by every theorem
below, and is modelled as a fresh map. -/
def smapOf : Option IndexVal → List (Nat × String)
  | some (.smap m) => m
  | _ => []

/-- `addToIndex(entry)` (src/src/entry-collection.js lines 43-47): bind the
hash, create the chain map if absent (`smapOf`), and record `seq → hash`. -/
def addToIndex (idx : IndexFun) (e : Entry) : IndexFun :=
  let key := id2key e
  let idx1 : IndexFun := fun k => if k = e.hash then some (.ent e) else idx k
  fun k => if k = key then some (.smap (smapInsert (smapOf (idx1 key)) e.seq e.hash)) else idx1 k

/-- `removeFromIndex(entry)` (src/src/entry-collection.js lines 48-51): drop
the hash binding and the `seq` key of the chain map.  A missing chain map
would make the JS `delete` throw; it is unreachable because every queued entry
went through `addToIndex`. -/
def removeFromIndex (idx : IndexFun) (e : Entry) : IndexFun :=
  let key := id2key e
  let idx1 : IndexFun := fun k => if k = e.hash then none else idx k
  match idx1 key with
  | some (.smap m) => fun k => if k = key then some (.smap (smapErase m e.seq)) else idx1 k
  | _ => idx1

/-- `Object.keys` of a chain map: the decimal renderings of its keys, in
ascending numeric order (the map is kept sorted). -/
def natKeyStrings (m : List (Nat × String)) : List String :=
  m.map (fun p => toString p.1)

/-- `hasOlderSiblingInQueue(entry)` (src/src/entry-collection.js lines 56-63):
lexicographically sort the chain map keys (`.sort((a, b) => a > b)` on
strings) and find the first key whose numeric value is below `entry.seq`
(`entry.seq > seq` coerces the string key to a number). -/
def hasOlderSiblingInQueue (idx : IndexFun) (e : Entry) : Int :=
  match idx (id2key e) with
  | some (.smap m) =>
      jsFindIndex (fun s => decide (strToNum s < e.seq))
        (jsSort (fun a b => jsStrLt b a) (natKeyStrings m))
  | _ => -1

/-- `hasParentsInQueue(entry)` (src/src/entry-collection.js lines 65-68): the
first position in `entry.next` whose digest is still bound in the index
(`index[e] !== undefined`). -/
def hasParentsInQueue (idx : IndexFun) (e : Entry) : Int :=
  jsFindIndex (fun h => (idx h).isSome) e.next

/-- `entry.next.map(e => index[e]).filter(e => e !== undefined)` (line 95).
Chain-map values cannot occur under id/hash disjointness. -/
def abcOf (idx : IndexFun) (e : Entry) : List Entry :=
  e.next.filterMap (fun h => match idx h with
    | some (.ent p) => some p
    | _ => none)

/-- The mutable state of the `while` loop of `EntryCollection.sort`. -/
structure SortState where
  queue : List Entry
  idx : IndexFun
  cache : String → Bool
  result : List Entry

/-- One-shot model of the `while (queue.length > 0)` loop of
`EntryCollection.sort` (src/src/entry-collection.js lines 91-144), with the
dead bindings (`olderSiblingIdx`, `Entry.findNextSibling`) omitted.  `sib` is
the closure `e => Entry.findSiblings(e, entries)`.  The fuel argument bounds
the number of iterations; the JS loop has no syntactic termination guarantee. -/
def sortLoop (sib : Entry → List Entry) : Nat → SortState → List Entry
  | 0, st => st.result
  | fuel + 1, st =>
    match st.queue with
    | [] => st.result
    | entry :: rest =>
      if st.cache entry.hash then
        sortLoop sib fuel { st with queue := rest }
      else if hasParentsInQueue st.idx entry ≠ -1 then
        let abc := abcOf st.idx entry
        let parentIdx :=
          (abc.map (fun a => jsFindIndex (fun e => a.hash = e.hash) rest)).foldl max (-1 : Int)
        if parentIdx > -1 then
          sortLoop sib fuel
            { st with queue := List.insertIdx (parentIdx + 1).toNat entry rest,
                      idx := addToIndex st.idx entry }
        else
          sortLoop sib fuel
            { st with queue := rest ++ abc, idx := abc.foldl addToIndex st.idx }
      else if hasOlderSiblingInQueue st.idx entry ≠ -1 then
        sortLoop sib fuel { st with queue := rest ++ [entry], idx := addToIndex st.idx entry }
      else if st.cache entry.hash = false then
        let idx1 := removeFromIndex st.idx entry
        -- src/src/entry-collection.js lines 135-141: the siblings pass
        -- through one more `.sort((a, b) => a.id < b.id)` before enqueuing
        let sibs := jsSort (fun a b => jsStrLt a.id b.id) (sib entry)
        sortLoop sib fuel
          { queue := rest ++ sibs,
            idx := sibs.foldl addToIndex idx1,
            cache := fun h => if h = entry.hash then true else st.cache h,
            result := st.result ++ [entry] }
      else
        sortLoop sib fuel { st with queue := rest }

/-- `processEntry` (src/src/entry-collection.js lines 71-74): writes
`e.id2 = e.id` onto the entry object before indexing it. -/
def processEntry (e : Entry) : Entry :=
  { e with id2 := some e.id }

/-- Fuel ample for every terminating run exercised in this file. -/
def sortFuel (n : Nat) : Nat :=
  (n + 1) * (n + 1) * (n + 1)

/-- The initial sorting index of `EntryCollection.sort`: every (annotated)
entry added in input order (src/src/entry-collection.js line 75). -/
def buildIndex (es : List Entry) : IndexFun :=
  es.foldl addToIndex (fun _ => none)

/-- The tail comparator `(a, b) => index[a.hash].id > index[b.hash].id`
(src/src/entry-collection.js line 79).  An index miss would make JS throw;
tails are always indexed. -/
def tailIdCmp (idx : IndexFun) (a b : Entry) : Bool :=
  match idx a.hash, idx b.hash with
  | some (.ent ea), some (.ent eb) => jsStrLt eb.id ea.id
  | _, _ => false

/-- The tail comparator `(a, b) => index[a.hash].seq > index[b.hash].seq`
(src/src/entry-collection.js line 80). -/
def tailSeqCmp (idx : IndexFun) (a b : Entry) : Bool :=
  match idx a.hash, idx b.hash with
  | some (.ent ea), some (.ent eb) => decide (eb.seq < ea.seq)
  | _, _ => false

/-- The initial queue of `EntryCollection.sort`: the tails, passed through
the two comparators above (src/src/entry-collection.js lines 78-80). -/
def sortTails (idx : IndexFun) (es : List Entry) : List Entry :=
  jsSort (tailSeqCmp idx) (jsSort (tailIdCmp idx) (findTails es))

/-- `EntryCollection.sort(entries)` (src/src/entry-collection.js lines
26-148): annotate the entries (`processEntry`), build the index, take the
sorted tails as the initial queue, and run the loop.  The dead
`withoutTails` binding (its `concat` onto the queue is commented out in the
source) is omitted. -/
def sort (entries : List Entry) : List Entry :=
  let es := entries.map processEntry
  sortLoop (fun e => Entry.findSiblings e es) (sortFuel entries.length)
    { queue := sortTails (buildIndex es) es, idx := buildIndex es,
      cache := fun _ => false, result := [] }

/-- The caller-visible state of the input entries after `EntryCollection.sort`
returns: the sort mutated every one of them through `processEntry`
(src/src/entry-collection.js lines 71-75). -/
def inputAfterSort (entries : List Entry) : List Entry :=
  entries.map processEntry

end EntryCollection

namespace LogUtils

/-- `log.get(hash)` (src/src/log.js line 481): the first item with that
digest. -/
def get (l : Log) (h : String) : Option Entry :=
  l.items.find? (fun e => e.hash = h)

/-- The head entries a log can resolve:
`log._heads.map(e => log.get(e)).filter(e => e !== undefined)`
(src/src/log.js lines 671-672). -/
def resolvedHeads (l : Log) : List Entry :=
  l.heads.filterMap (get l)

/-- JS `>` on the two `headsX[0] ? headsX[0].id : null` operands
(src/src/log.js lines 679-681): a string comparison when both sides are
strings; a comparison against `null` coerces to numbers and, for the
non-numeric id strings this code produces, yields `NaN` and hence `false`.
The theorems below only exercise the two-string and equal-operand cases, on
which this model is exact. -/
def jsGtOpt (a b : Option String) : Bool :=
  match a, b with
  | some x, some y => jsStrLt y x
  | _, _ => false

/-- The effective size in `join`: `size = size ? size : a.items.length +
b.items.length` (src/src/log.js line 668); `0` is falsy. -/
def effectiveSize (a b : Log) (size? : Option Nat) : Nat :=
  match size? with
  | some s => if s = 0 then a.items.length + b.items.length else s
  | none => a.items.length + b.items.length

/-- `LogUtils._insert(ipfs, log, entry)` (src/src/log.js lines 738-749): skip
a present digest, otherwise splice the entry right after its latest parent
(index `max(max(indices) + 1, 0)`, where a missing parent contributes `-1`).
`Math.max` over the non-empty index list equals the fold from `-1` because
each `indexOf` result is at least `-1`. -/
def insertOne (items : List Entry) (e : Entry) : List Entry :=
  let hashes := items.map Entry.hash
  if hashes.contains e.hash then items
  else
    let indices := e.next.map (fun n => jsFindIndex (fun h => h = n) hashes)
    let index : Int :=
      if indices.length > 0 then max ((indices.foldl max (-1)) + 1) 0 else 0
    List.insertIdx index.toNat e items

/-- The item list built by `join` after choosing `(log1, log2)`
(src/src/log.js lines 685-693): start from the first `size` old entries and
`_insert` each of the reversed, size-capped new entries. -/
def joinCore (log1 log2 : Log) (size : Nat) : List Entry :=
  ((log2.items.reverse).take size).foldl insertOne (log1.items.take size)

/-- `LogUtils.join(ipfs, a, b, size)` (src/src/log.js lines 661-698): resolve
both head lists, order the two logs by the id of their first resolved head
(`aa > bb`), cap both item lists, and build the result; the result heads are
the resolved heads of both inputs ordered by `.sort((a, b) => a.id > b.id)`
and mapped to digests.  The `ipfs` argument is immaterial to the value and is
dropped; the redundant second `.filter(e => e !== undefined)` on the resolved
heads is the identity. -/
def join (a b : Log) (size? : Option Nat) : Log :=
  let size := effectiveSize a b size?
  let headsA := resolvedHeads a
  let headsB := resolvedHeads b
  let heads :=
    (jsSort (fun x y => jsStrLt y.id x.id) (headsA ++ headsB)).map Entry.hash
  let aa := headsA.head?.map Entry.id
  let bb := headsB.head?.map Entry.id
  let isFirst := jsGtOpt aa bb
  let log1 := if isFirst then a else b
  let log2 := if isFirst then b else a
  { id := log1.id, items := joinCore log1 log2 size, heads := heads }

/-- `LogUtils.joinAll(ipfs, logs)` (src/src/log.js lines 706-711):
`logs.reduce(..., null)`; the accumulator is `null` (here `none`) until the
first log arrives. -/
def joinAll (logs : List Log) : Option Log :=
  logs.foldl
    (fun acc val => match acc with
      | none => some val
      | some l => some (join l val none))
    none

/-- The serialization error of `getIpfsHash`; the JS message is
"Can not serialize an empty log". -/
inductive SerializeError where
  | emptyLog : SerializeError
deriving DecidableEq, Repr

/-- `log.serialize()` (src/src/log.js lines 497-502): the persisted log image
holds exactly the id and the heads. -/
structure LogImage where
  id : String
  heads : List String
deriving DecidableEq, Repr

/-- `Log.serialize` as a function. -/
def serialize (l : Log) : LogImage :=
  { id := l.id, heads := l.heads }

/-- `LogUtils.getIpfsHash(ipfs, log)` (src/src/log.js lines 603-610): reject a
log with fewer than one item, otherwise put the serialized image to the store
(abstracted by `put`) and return the digest.  There is no check on `heads`. -/
def getIpfsHash (put : LogImage → String) (log : Log) : Except SerializeError String :=
  if log.items.length < 1 then Except.error SerializeError.emptyLog
  else Except.ok (put (serialize log))

/-- The synchronous prefix of `LogUtils.expand(ipfs, log, length, ...)`
(src/src/log.js lines 721-730): `log.items.slice()[0].next.sort((a, b) => a > b)`.
On an empty item list `slice()[0]` is `undefined` and the `.next` access
throws a TypeError, modelled as `none`. -/
def expandTails (log : Log) : Option (List String) :=
  match log.items with
  | [] => none
  | e :: _ => some (jsSort (fun a b => jsStrLt b a) e.next)

/-- `LogUtils.append(ipfs, log, data)`, modelled from the spec.
Modelled from the spec: the seq-aware `LogUtils.append` exercised by
src/test/log.spec.js is absent from src/ (the `append` present in
src/src/log.js lines 629-645 predates the seq field and calls an
incompatible `Entry.create` signature).  Per the spec, §4.5: compute
`seq = latest_seq(log.items) + 1` with `EntryCollection.getLatestSeqNumber`,
create the entry with the log id, `seq`, the payload and `next = log.heads`
through `Entry.create` (src/unnamed/part_004), then return a new Log whose
items are the old items plus the entry and whose heads are exactly the new
entry's digest.  `getLatestSeqNumber` is at least `-1`, so the computed seq
is the `Int.toNat` image of `latest + 1`. -/
def append (put : List (String × Entry.JVal) → String) (log : Log) (payload : String) : Log :=
  let seq : Int := EntryCollection.getLatestSeqNumber log.items + 1
  let entry := Entry.create put log.id seq.toNat payload (log.heads.map Entry.NextRef.hashRef)
  { id := log.id, items := log.items ++ [entry], heads := [entry.hash] }

end LogUtils

/-- The strict-or-equal lexicographic relation on two sort keys, used to
state that a doubly-sorted list is sorted: the later sort key `k2` decides
first, ties fall back to the earlier sort key `k1`, and equal elements are
related reflexively. -/
def lexRel {α : Type u} {κ₁ : Type v} {κ₂ : Type w} [LT κ₁] [LT κ₂]
    (k1 : α → κ₁) (k2 : α → κ₂) (x y : α) : Prop :=
  k2 x < k2 y ∨ (k2 x = k2 y ∧ k1 x < k1 y) ∨ x = y

/-- The comparator induced by a sort key: `a` is moved past `b` exactly when
`a` is strictly greater by the key.  Used to state the generic facts about
`jsSort` uniformly. -/
def keyCmp {α : Type u} {κ : Type v} [LinearOrder κ] (k : α → κ) (a b : α) : Bool :=
  decide (k b < k a)

/-! ## Concrete data used by counterexamples and witnesses -/

/-- A bare entry on chain A. -/
def ceP : Entry :=
  { hash := "h1", id := "A", seq := 0, payload := "p", next := [] }

/-- A second bare entry on chain A with a distinct digest. -/
def ceQ : Entry :=
  { hash := "h2", id := "A", seq := 0, payload := "q", next := [] }

/-- A bare entry on chain B. -/
def ceR : Entry :=
  { hash := "h3", id := "B", seq := 0, payload := "r", next := [] }

/-- A child of `ceP` on chain A. -/
def ceP2 : Entry :=
  { hash := "h4", id := "A", seq := 1, payload := "p2", next := ["h1"] }

/-- Single-entry log over `ceP`. -/
def logP : Log :=
  { id := "A", items := [ceP], heads := ["h1"] }

/-- Single-entry log over `ceQ`. -/
def logQ : Log :=
  { id := "A", items := [ceQ], heads := ["h2"] }

/-- Two-entry chain log over `ceP` and `ceP2`. -/
def logP2 : Log :=
  { id := "A", items := [ceP, ceP2], heads := ["h4"] }

/-- A log with a non-empty item list but an empty head list. -/
def logNoHeads : Log :=
  { id := "A", items := [ceP], heads := [] }

/-! ## Helper lemmas -/

theorem jsStrLt_eq_true_iff (a b : String) : jsStrLt a b = true ↔ a < b := by
  unfold jsStrLt
  constructor
  · intro h
    exact String.lt_iff_toList_lt.mpr (of_decide_eq_true h)
  · intro h
    exact decide_eq_true (String.lt_iff_toList_lt.mp h)

theorem jsStrLt_eq_false_iff (a b : String) : jsStrLt a b = false ↔ ¬ a < b := by
  rw [← jsStrLt_eq_true_iff]
  simp

namespace JsSortLemmas

theorem jsInsertBack_perm (g : α → α → Bool) (x : α) :
    ∀ l : List α, (jsInsertBack g x l).Perm (x :: l) := by
  intro l
  induction l with
  | nil => simp [jsInsertBack]
  | cons y ys ih =>
    simp only [jsInsertBack]
    by_cases h : g y x
    · simp only [h, if_true]
      exact (ih.cons y).trans (List.Perm.swap x y ys)
    · simp [h]

theorem jsSort_foldl_perm (g : α → α → Bool) :
    ∀ (l acc : List α), (l.foldl (fun a x => jsInsertBack g x a) acc).Perm (l ++ acc) := by
  intro l
  induction l with
  | nil => intro acc; simp
  | cons x xs ih =>
    intro acc
    have h1 := ih (jsInsertBack g x acc)
    have h2 : (xs ++ jsInsertBack g x acc).Perm (xs ++ x :: acc) :=
      List.Perm.append_left xs (jsInsertBack_perm g x acc)
    have h3 : (xs ++ x :: acc).Perm (x :: (xs ++ acc)) := List.perm_middle
    simpa using (h1.trans (h2.trans h3))

theorem jsSort_perm (g : α → α → Bool) (l : List α) : (jsSort g l).Perm l := by
  unfold jsSort
  refine (List.reverse_perm _).trans ?_
  simpa using jsSort_foldl_perm g l []

theorem mem_jsInsertBack {g : α → α → Bool} {x z : α} {l : List α} :
    z ∈ jsInsertBack g x l ↔ z = x ∨ z ∈ l := by
  rw [(jsInsertBack_perm g x l).mem_iff]
  simp

theorem sublist_jsInsertBack (g : α → α → Bool) (z : α) :
    ∀ {s l : List α}, s.Sublist l → s.Sublist (jsInsertBack g z l) := by
  intro s l
  induction l generalizing s with
  | nil =>
    intro hs
    simp only [List.sublist_nil] at hs
    simp [hs, jsInsertBack]
  | cons w ws ih =>
    intro hs
    simp only [jsInsertBack]
    cases hgw : g w z with
    | true =>
      simp only [if_true]
      rcases List.sublist_cons_iff.mp hs with h | ⟨r, rfl, hr⟩
      · exact (ih h).trans (List.sublist_cons_self w _)
      · exact List.cons_sublist_cons.mpr (ih hr)
    | false =>
      simp only [Bool.false_eq_true, if_false]
      exact hs.trans (List.sublist_cons_self z (w :: ws))

theorem jsInsertBack_pair {g : α → α → Bool} {y x : α} {l : List α}
    (hx : x ∈ l) (hgx : g x y = false) :
    [y, x].Sublist (jsInsertBack g y l) := by
  induction l with
  | nil => cases hx
  | cons w ws ih =>
    simp only [jsInsertBack]
    cases hgw : g w y with
    | true =>
      simp only [if_true]
      rcases List.mem_cons.mp hx with rfl | hx'
      · rw [hgx] at hgw
        cases hgw
      · exact (ih hx').trans (List.sublist_cons_self w _)
    | false =>
      simp only [Bool.false_eq_true, if_false]
      exact List.cons_sublist_cons.mpr (List.singleton_sublist.mpr hx)

theorem jsInsertBack_congr {g g' : α → α → Bool} {x : α} :
    ∀ {l : List α}, (∀ y ∈ l, g y x = g' y x) → jsInsertBack g x l = jsInsertBack g' x l := by
  intro l
  induction l with
  | nil => intro _; rfl
  | cons w ws ih =>
    intro h
    have hw : g w x = g' w x := h w (by simp)
    simp only [jsInsertBack, hw]
    cases hgw : g' w x with
    | true => simp only [if_true, ih (fun y hy => h y (by simp [hy]))]
    | false => simp

theorem jsSort_foldl_congr {g g' : α → α → Bool} :
    ∀ {l acc : List α}, (∀ x ∈ l ++ acc, ∀ y ∈ l ++ acc, g x y = g' x y) →
      l.foldl (fun a x => jsInsertBack g x a) acc = l.foldl (fun a x => jsInsertBack g' x a) acc := by
  intro l
  induction l with
  | nil => intro acc _; rfl
  | cons x xs ih =>
    intro acc h
    have hins : jsInsertBack g x acc = jsInsertBack g' x acc :=
      jsInsertBack_congr (fun y hy => h y (by simp [hy]) x (by simp))
    have hmem : ∀ u ∈ xs ++ jsInsertBack g' x acc, u ∈ (x :: xs) ++ acc := by
      intro u hu
      rcases List.mem_append.mp hu with h1 | h1
      · simp [h1]
      · rcases mem_jsInsertBack.mp h1 with rfl | h2
        · simp
        · simp [h2]
    simp only [List.foldl_cons, hins]
    exact ih (fun u hu v hv => h u (hmem u hu) v (hmem v hv))

theorem jsSort_congr {g g' : α → α → Bool} {l : List α}
    (h : ∀ x ∈ l, ∀ y ∈ l, g x y = g' x y) : jsSort g l = jsSort g' l := by
  unfold jsSort
  rw [jsSort_foldl_congr (by simpa using h)]

theorem pair_sublist_antisymm :
    ∀ {l : List α}, l.Nodup → ∀ {x y : α}, [x, y].Sublist l → [y, x].Sublist l → x = y := by
  intro l
  induction l with
  | nil =>
    intro _ x y h
    exact absurd (List.sublist_nil.mp h) (by simp)
  | cons a t ih =>
    intro hnd x y hxy hyx
    obtain ⟨hat, hnt⟩ := List.nodup_cons.mp hnd
    rcases List.sublist_cons_iff.mp hxy with h1 | ⟨r1, he1, hs1⟩
    · rcases List.sublist_cons_iff.mp hyx with h2 | ⟨r2, he2, hs2⟩
      · exact ih hnt h1 h2
      · obtain ⟨hy, _⟩ := List.cons_eq_cons.mp he2
        have hyt : y ∈ t := h1.subset (by simp)
        exact absurd (hy ▸ hyt) hat
    · obtain ⟨hx, hr⟩ := List.cons_eq_cons.mp he1
      rcases List.sublist_cons_iff.mp hyx with h2 | ⟨r2, he2, hs2⟩
      · have hxt : x ∈ t := h2.subset (by simp)
        exact absurd (hx ▸ hxt) hat
      · obtain ⟨hy, _⟩ := List.cons_eq_cons.mp he2
        rw [hx, hy]

theorem pair_sublist_dichotomy :
    ∀ {l : List α} {x y : α}, x ∈ l → y ∈ l → x ≠ y →
      [x, y].Sublist l ∨ [y, x].Sublist l := by
  intro l
  induction l with
  | nil => intro x y h; cases h
  | cons a t ih =>
    intro x y hx hy hne
    rcases List.mem_cons.mp hx with rfl | hxt
    · have hyt : y ∈ t := by
        rcases List.mem_cons.mp hy with rfl | h
        · exact absurd rfl hne
        · exact h
      exact Or.inl (List.cons_sublist_cons.mpr (List.singleton_sublist.mpr hyt))
    · rcases List.mem_cons.mp hy with rfl | hyt
      · exact Or.inr (List.cons_sublist_cons.mpr (List.singleton_sublist.mpr hxt))
      · rcases ih hxt hyt hne with h | h
        · exact Or.inl (h.trans (List.sublist_cons_self a t))
        · exact Or.inr (h.trans (List.sublist_cons_self a t))

theorem bool_eq_decide {b : Bool} {p : Prop} (inst : Decidable p) (h : b = true ↔ p) :
    b = @decide p inst := by
  cases inst with
  | isTrue hp =>
    show b = true
    exact h.mpr hp
  | isFalse hp =>
    show b = false
    cases hb : b
    · rfl
    · exact absurd (h.mp hb) hp

section Keyed

variable {κ : Type v} [LinearOrder κ]

theorem jsInsertBack_pairwise_rev (k : α → κ) (x : α) :
    ∀ {acc : List α}, List.Pairwise (fun a b => k b ≤ k a) acc →
      List.Pairwise (fun a b => k b ≤ k a) (jsInsertBack (fun a b => decide (k b < k a)) x acc) := by
  intro acc
  induction acc with
  | nil => intro _; simp [jsInsertBack]
  | cons y ys ih =>
    intro h
    obtain ⟨hy, hys⟩ := List.pairwise_cons.mp h
    simp only [jsInsertBack]
    by_cases hxy : k x < k y
    · rw [if_pos (decide_eq_true hxy)]
      refine List.pairwise_cons.mpr ⟨?_, ih hys⟩
      intro z hz
      rcases mem_jsInsertBack.mp hz with rfl | hz'
      · exact le_of_lt hxy
      · exact hy z hz'
    · rw [if_neg (by simp [hxy])]
      have hyx : k y ≤ k x := not_lt.mp hxy
      refine List.pairwise_cons.mpr ⟨?_, h⟩
      intro z hz
      rcases List.mem_cons.mp hz with rfl | hz'
      · exact hyx
      · exact le_trans (hy z hz') hyx

theorem jsSort_foldl_pairwise_rev (k : α → κ) :
    ∀ (l acc : List α), List.Pairwise (fun a b => k b ≤ k a) acc →
      List.Pairwise (fun a b => k b ≤ k a)
        (l.foldl (fun a x => jsInsertBack (fun a b => decide (k b < k a)) x a) acc) := by
  intro l
  induction l with
  | nil => intro acc h; exact h
  | cons x xs ih =>
    intro acc h
    exact ih _ (jsInsertBack_pairwise_rev k x h)

theorem jsSort_sorted (k : α → κ) (l : List α) :
    List.Pairwise (fun x y => k x ≤ k y) (jsSort (fun a b => decide (k b < k a)) l) := by
  unfold jsSort
  rw [List.pairwise_reverse]
  exact jsSort_foldl_pairwise_rev k l [] (by simp)

theorem jsSort_stable_aux (k : α → κ) {x y : α} (hle : k x ≤ k y) :
    ∀ (l acc : List α),
      ([y, x].Sublist acc ∨ (x ∈ acc ∧ y ∈ l) ∨ [x, y].Sublist l) →
      [y, x].Sublist
        (l.foldl (fun a z => jsInsertBack (fun a b => decide (k b < k a)) z a) acc) := by
  intro l
  induction l with
  | nil =>
    intro acc h
    rcases h with h | ⟨_, h⟩ | h
    · exact h
    · cases h
    · exact absurd (List.sublist_nil.mp h) (by simp)
  | cons z l' ih =>
    intro acc h
    simp only [List.foldl_cons]
    rcases h with h | ⟨hxacc, hyl⟩ | h
    · exact ih _ (Or.inl (sublist_jsInsertBack _ z h))
    · rcases List.mem_cons.mp hyl with rfl | hyl'
      · have hgx : decide (k y < k x) = false := decide_eq_false (not_lt.mpr hle)
        exact ih _ (Or.inl (jsInsertBack_pair hxacc hgx))
      · exact ih _ (Or.inr (Or.inl ⟨mem_jsInsertBack.mpr (Or.inr hxacc), hyl'⟩))
    · rcases List.sublist_cons_iff.mp h with h' | ⟨r, her, hr⟩
      · exact ih _ (Or.inr (Or.inr h'))
      · obtain ⟨hz, hrr⟩ := List.cons_eq_cons.mp her
        have hyl' : y ∈ l' := by
          rw [← hrr] at hr
          exact hr.subset (by simp)
        exact ih _ (Or.inr (Or.inl ⟨mem_jsInsertBack.mpr (Or.inl hz), hyl'⟩))

theorem jsSort_stable (k : α → κ) {x y : α} {l : List α}
    (hxy : [x, y].Sublist l) (hle : k x ≤ k y) :
    [x, y].Sublist (jsSort (fun a b => decide (k b < k a)) l) := by
  unfold jsSort
  have h := jsSort_stable_aux k hle l [] (Or.inr (Or.inr hxy))
  have h2 : [x, y].reverse.Sublist
      ((l.foldl (fun a z => jsInsertBack (fun a b => decide (k b < k a)) z a) []).reverse.reverse) := by
    simpa using h
  exact List.reverse_sublist.mp h2

end Keyed

section TwoKeys

variable {κ₁ : Type v} {κ₂ : Type w} [LinearOrder κ₁] [LinearOrder κ₂]

theorem lexRel_antisymm (k1 : α → κ₁) (k2 : α → κ₂) (a b : α) :
    lexRel k1 k2 a b → lexRel k1 k2 b a → a = b := by
  intro h1 h2
  rcases h1 with h1 | ⟨he1, h1⟩ | h1
  · rcases h2 with h2 | ⟨he2, _⟩ | h2
    · exact absurd h2 (lt_asymm h1)
    · exact absurd h1 (by rw [he2]; exact lt_irrefl _)
    · exact h2.symm
  · rcases h2 with h2 | ⟨_, h2⟩ | h2
    · exact absurd h2 (by rw [he1]; exact lt_irrefl _)
    · exact absurd h2 (lt_asymm h1)
    · exact h2.symm
  · exact h1

theorem jsSort2_sorted_lex (k1 : α → κ₁) (k2 : α → κ₂) {l : List α}
    (hnd : l.Nodup)
    (hinj : ∀ x ∈ l, ∀ y ∈ l, k1 x = k1 y → k2 x = k2 y → x = y) :
    List.Pairwise (lexRel k1 k2) (jsSort (keyCmp k2) (jsSort (keyCmp k1) l)) := by
  show List.Pairwise (lexRel k1 k2)
    (jsSort (fun a b => decide (k2 b < k2 a)) (jsSort (fun a b => decide (k1 b < k1 a)) l))
  set mid := jsSort (fun a b => decide (k1 b < k1 a)) l with hmid
  set out := jsSort (fun a b => decide (k2 b < k2 a)) mid with hout
  have hpm : mid.Perm l := jsSort_perm _ l
  have hpo : out.Perm mid := jsSort_perm _ mid
  have hndout : out.Nodup := ((hpo.trans hpm).symm.nodup) hnd
  rw [List.pairwise_iff_forall_sublist]
  intro a b hab
  have hamem : a ∈ out := hab.subset (by simp)
  have hbmem : b ∈ out := hab.subset (by simp)
  have hk2 : k2 a ≤ k2 b :=
    List.pairwise_iff_forall_sublist.mp (jsSort_sorted k2 mid) hab
  rcases lt_or_eq_of_le hk2 with hlt | heq
  · exact Or.inl hlt
  · by_cases hab' : a = b
    · exact Or.inr (Or.inr hab')
    · have hamid : a ∈ mid := hpo.mem_iff.mp hamem
      have hbmid : b ∈ mid := hpo.mem_iff.mp hbmem
      rcases pair_sublist_dichotomy hamid hbmid hab' with hm | hm
      · have hk1 : k1 a ≤ k1 b :=
          List.pairwise_iff_forall_sublist.mp (jsSort_sorted k1 l) hm
        rcases lt_or_eq_of_le hk1 with h1 | h1
        · exact Or.inr (Or.inl ⟨heq, h1⟩)
        · exact absurd
            (hinj a (hpm.subset hamid) b (hpm.subset hbmid) h1 heq) hab'
      · have hba : [b, a].Sublist out := jsSort_stable k2 hm (le_of_eq heq.symm)
        exact absurd (pair_sublist_antisymm hndout hab hba) hab'

theorem jsSort2_eq_of_perm (k1 : α → κ₁) (k2 : α → κ₂) {l l' : List α}
    (hperm : l'.Perm l) (hnd : l.Nodup)
    (hinj : ∀ x ∈ l, ∀ y ∈ l, k1 x = k1 y → k2 x = k2 y → x = y) :
    jsSort (keyCmp k2) (jsSort (keyCmp k1) l')
      = jsSort (keyCmp k2) (jsSort (keyCmp k1) l) := by
  haveI ha : IsAntisymm α (lexRel k1 k2) := IsAntisymm.mk (lexRel_antisymm k1 k2)
  have hnd' : l'.Nodup := hperm.symm.nodup hnd
  have hinj' : ∀ x ∈ l', ∀ y ∈ l', k1 x = k1 y → k2 x = k2 y → x = y := by
    intro x hx y hy
    exact hinj x (hperm.subset hx) y (hperm.subset hy)
  have hpermo :
      (jsSort (keyCmp k2) (jsSort (keyCmp k1) l')).Perm
        (jsSort (keyCmp k2) (jsSort (keyCmp k1) l)) :=
    ((jsSort_perm _ _).trans ((jsSort_perm _ _).trans hperm)).trans
      (((jsSort_perm _ _).trans (jsSort_perm _ _)).symm)
  exact @List.eq_of_perm_of_sorted _ (lexRel k1 k2) ha _ _ hpermo
    (jsSort2_sorted_lex k1 k2 hnd' hinj') (jsSort2_sorted_lex k1 k2 hnd hinj)

end TwoKeys

theorem jsStrLt_eq_decide_lt (a b : String) : jsStrLt a b = decide (a < b) := by
  by_cases h : a < b
  · rw [decide_eq_true h]
    exact (jsStrLt_eq_true_iff a b).mpr h
  · rw [decide_eq_false h]
    exact (jsStrLt_eq_false_iff a b).mpr h

end JsSortLemmas

namespace LogUtils

theorem insertOne_of_mem {items : List Entry} {e : Entry}
    (h : e.hash ∈ items.map Entry.hash) : insertOne items e = items := by
  have hc : (items.map Entry.hash).contains e.hash = true :=
    List.elem_eq_true_of_mem h
  simp only [insertOne]
  rw [if_pos hc]

theorem foldl_insertOne_of_mem :
    ∀ (news items : List Entry),
      (∀ e ∈ news, e.hash ∈ items.map Entry.hash) →
      news.foldl insertOne items = items := by
  intro news
  induction news with
  | nil => intro items _; rfl
  | cons e ns ih =>
    intro items h
    have he : e.hash ∈ items.map Entry.hash := h e (by simp)
    have step : insertOne items e = items := insertOne_of_mem he
    simp only [List.foldl_cons, step]
    exact ih items (fun f hf => h f (by simp [hf]))

theorem neg_one_le_getLatestSeqNumber_aux (l : List Entry) :
    ∀ i : Int, i ≤ l.foldl (fun res e => if (e.seq : Int) > res then (e.seq : Int) else res) i := by
  induction l with
  | nil => intro i; simp
  | cons e es ih =>
    intro i
    refine le_trans ?_ (ih (if (e.seq : Int) > i then (e.seq : Int) else i))
    by_cases h : (e.seq : Int) > i <;> simp [h] <;> omega

theorem neg_one_le_getLatestSeqNumber (l : List Entry) :
    (-1 : Int) ≤ EntryCollection.getLatestSeqNumber l :=
  neg_one_le_getLatestSeqNumber_aux l (-1)

end LogUtils

/-! ## Claims -/

/-- C2.  For every log `a`, `join(a, a)` returns a log whose items sequence
equals `a.items`: every entry of the reversed copy is skipped by `_insert`
because its digest is already present. -/
theorem join_self_items (a : Log) : (LogUtils.join a a none).items = a.items := by
  simp only [LogUtils.join, ite_self]
  show LogUtils.joinCore a a (LogUtils.effectiveSize a a none) = a.items
  unfold LogUtils.joinCore LogUtils.effectiveSize
  have hlen : a.items.length ≤ a.items.length + a.items.length := Nat.le_add_right _ _
  have hrev : a.items.reverse.length ≤ a.items.length + a.items.length := by
    simpa using hlen
  rw [List.take_of_length_le hlen, List.take_of_length_le hrev]
  exact LogUtils.foldl_insertOne_of_mem a.items.reverse a.items
    (fun e he => List.mem_map_of_mem Entry.hash (List.mem_reverse.mp he))

/-- C1 counterexample.  Two single-entry logs whose head entries share the id
"A": `join(a, b)` and `join(b, a)` order the pair identically (the id
comparison returns false both ways), so the two payload sequences come out
reversed from one another. -/
theorem join_comm_counterexample :
    (LogUtils.join logP logQ none).items.map Entry.payload ≠
      (LogUtils.join logQ logP none).items.map Entry.payload := by
  decide

/-- C1 amended.  Commutativity of `join` on payload sequences holds whenever
the first resolved head entries of the two logs carry distinct ids, so that
the `aa > bb` comparison orders the pair consistently in both calls. -/
theorem join_comm_of_distinct_head_ids (a b : Log) (s : Option Nat) (x y : String)
    (hx : (LogUtils.resolvedHeads a).head?.map Entry.id = some x)
    (hy : (LogUtils.resolvedHeads b).head?.map Entry.id = some y)
    (hxy : x ≠ y) :
    (LogUtils.join a b s).items.map Entry.payload =
      (LogUtils.join b a s).items.map Entry.payload := by
  have hsize : LogUtils.effectiveSize a b s = LogUtils.effectiveSize b a s := by
    unfold LogUtils.effectiveSize
    cases s <;> simp [Nat.add_comm]
  simp only [LogUtils.join]
  rw [hx, hy]
  rcases lt_trichotomy x y with h | h | h
  · have g1 : LogUtils.jsGtOpt (some x) (some y) = false := by
      show jsStrLt y x = false
      exact (jsStrLt_eq_false_iff y x).mpr (not_lt_of_gt h)
    have g2 : LogUtils.jsGtOpt (some y) (some x) = true := by
      show jsStrLt x y = true
      exact (jsStrLt_eq_true_iff x y).mpr h
    simp [g1, g2, hsize]
  · exact absurd h hxy
  · have g1 : LogUtils.jsGtOpt (some x) (some y) = true := by
      show jsStrLt y x = true
      exact (jsStrLt_eq_true_iff y x).mpr h
    have g2 : LogUtils.jsGtOpt (some y) (some x) = false := by
      show jsStrLt x y = false
      exact (jsStrLt_eq_false_iff x y).mpr (not_lt_of_gt h)
    simp [g1, g2, hsize]

/-- C1 witness for the amended statement: two singleton logs with head ids
"A" and "B". -/
theorem join_comm_of_distinct_head_ids_witness :
    (LogUtils.resolvedHeads logP).head?.map Entry.id = some "A" ∧
    (LogUtils.resolvedHeads { id := "B", items := [ceR], heads := ["h3"] }).head?.map Entry.id
        = some "B" ∧
    ("A" : String) ≠ "B" ∧
    (LogUtils.join logP { id := "B", items := [ceR], heads := ["h3"] } none).items.map
        Entry.payload =
      (LogUtils.join { id := "B", items := [ceR], heads := ["h3"] } logP none).items.map
        Entry.payload :=
  ⟨by decide, by decide, by decide,
    join_comm_of_distinct_head_ids logP { id := "B", items := [ceR], heads := ["h3"] } none
      "A" "B" (by decide) (by decide) (by decide)⟩

/-- C4 counterexample.  `a` holds only the parent entry, `b` holds parent and
child: the joined log keeps both entries, yet its heads are the union of both
input head lists (parent and child) instead of `find_heads` of the kept
entries (child only). -/
theorem join_heads_counterexample :
    (LogUtils.join logP logP2 none).heads ≠
      (EntryCollection.findHeads (LogUtils.join logP logP2 none).items).map Entry.hash := by
  decide

/-- C4 amended.  The heads of `join(a, b, size)` are exactly the digests of
the resolved head entries of `a` and of `b` (reordered by id), independent of
which entries were retained in `items`; they are not recomputed by
`find_heads`. -/
theorem join_heads_are_resolved_input_heads (a b : Log) (s : Option Nat) :
    (LogUtils.join a b s).heads.Perm
      ((LogUtils.resolvedHeads a ++ LogUtils.resolvedHeads b).map Entry.hash) := by
  unfold LogUtils.join
  exact (JsSortLemmas.jsSort_perm _ _).map Entry.hash

/-- C5 (spec-modelled `append`).  Appending payload `p` to `log` yields a log
whose items are the old items plus one new entry `e` with `e.id = log.id`,
`e.seq = latest_seq(log.items) + 1`, `e.payload = p`, `e.next = log.heads`,
and whose heads are exactly the digest of `e`. -/
theorem append_spec (put : List (String × Entry.JVal) → String) (log : Log) (p : String) :
    ∃ e : Entry,
      (LogUtils.append put log p).items = log.items ++ [e] ∧
      e.id = log.id ∧
      (e.seq : Int) = EntryCollection.getLatestSeqNumber log.items + 1 ∧
      e.payload = p ∧
      e.next = log.heads ∧
      (LogUtils.append put log p).heads = [e.hash] := by
  refine ⟨_, rfl, rfl, ?_, rfl, ?_, rfl⟩
  · show (((EntryCollection.getLatestSeqNumber log.items + 1).toNat : Int)) =
      EntryCollection.getLatestSeqNumber log.items + 1
    have h := LogUtils.neg_one_le_getLatestSeqNumber log.items
    omega
  · show Entry.normNext (log.heads.map Entry.NextRef.hashRef) = log.heads
    unfold Entry.normNext
    simp only [List.map_map, Function.comp_def]
    exact List.map_id log.heads

/-- C6 counterexample.  The image persisted for an entry at a concrete input:
its field list is not the four data fields, because the `hash` field (still
null) is serialized too. -/
theorem entry_image_counterexample :
    "hash" ∈ (Entry.entryImage "A" 0 "p" []).map Prod.fst ∧
      (Entry.entryImage "A" 0 "p" []).map Prod.fst ≠ ["id", "seq", "payload", "next"] := by
  decide

/-- C6 amended.  The persisted image of an entry contains exactly the fields
hash, id, seq, payload, next in that order, the `hash` field being serialized
as null: the digest is computed over this image and assigned only afterwards,
so the digest value itself never appears in the image. -/
theorem entry_image_fields (put : List (String × Entry.JVal) → String) (id : String)
    (seq : Nat) (p : String) (next : List Entry.NextRef) :
    (Entry.create put id seq p next).hash
        = put (Entry.entryImage id seq p (Entry.normNext next)) ∧
      (Entry.entryImage id seq p (Entry.normNext next)).map Prod.fst
        = ["hash", "id", "seq", "payload", "next"] ∧
      (Entry.entryImage id seq p (Entry.normNext next)).lookup "hash"
        = some Entry.JVal.null :=
  ⟨rfl, rfl, rfl⟩

/-- C7 (code bug).  A log with one item and an empty head list: `getIpfsHash`
happily serializes it and returns the digest, although the claim (and the
repository's own test, "throws an error if log heads is empty" in
src/test/log.spec.js) requires an empty-log error whenever `heads` is empty. -/
theorem getIpfsHash_ignores_empty_heads :
    LogUtils.getIpfsHash (fun _ => "QmTest") logNoHeads = Except.ok "QmTest" ∧
      logNoHeads.heads = [] ∧ logNoHeads.items ≠ [] :=
  ⟨rfl, rfl, by decide⟩

/-- C8 counterexample.  `EntryCollection.sort` mutates the entry objects it is
given: after sorting a one-entry input, the caller's entry carries the new
`id2` annotation and is no longer the value that was passed in. -/
theorem sort_mutates_input_counterexample :
    EntryCollection.inputAfterSort [ceP] ≠ [ceP] := by
  decide

/-- C8 amended.  `append`, `join` and `joinAll` are pure value constructions
(each returns a fresh Log, leaving the inputs intact), but `EntryCollection.sort`
writes onto every entry passed to it: each input entry keeps its id, seq,
payload, next and hash while gaining the annotation `id2 = id`. -/
theorem sort_preserves_entry_fields (entries : List Entry) (e : Entry) (he : e ∈ entries) :
    ∃ e' ∈ EntryCollection.inputAfterSort entries,
      e'.id = e.id ∧ e'.seq = e.seq ∧ e'.payload = e.payload ∧
      e'.next = e.next ∧ e'.hash = e.hash ∧ e'.id2 = some e.id :=
  ⟨EntryCollection.processEntry e,
    List.mem_map_of_mem EntryCollection.processEntry he,
    rfl, rfl, rfl, rfl, rfl, rfl⟩

/-- C8 witness for the amended statement, at the one-entry input. -/
theorem sort_preserves_entry_fields_witness :
    ceP ∈ [ceP] ∧
      ∃ e' ∈ EntryCollection.inputAfterSort [ceP],
        e'.id = ceP.id ∧ e'.seq = ceP.seq ∧ e'.payload = ceP.payload ∧
        e'.next = ceP.next ∧ e'.hash = ceP.hash ∧ e'.id2 = some ceP.id :=
  ⟨by decide, sort_preserves_entry_fields [ceP] ceP (by decide)⟩

/-- C9.  The synchronous head of `expand` dereferences
`log.items.slice()[0].next`: it throws (modelled by `none`) exactly when the
log has no items, instead of returning a log or a precondition error. -/
theorem expand_throws_iff_empty (log : Log) :
    LogUtils.expandTails log = none ↔ log.items = [] := by
  cases h : log.items <;> simp [LogUtils.expandTails, h]

/-- C10.  `joinAll` of the empty list is `null` (not a Log), and `joinAll` of
a singleton list returns that log unchanged. -/
theorem joinAll_nil_and_singleton :
    LogUtils.joinAll [] = none ∧ ∀ L : Log, LogUtils.joinAll [L] = some L :=
  ⟨rfl, fun _ => rfl⟩

/-! ## findTails under permutation -/

namespace EntryCollection

theorem buildHashSet_aux (l : List Entry) :
    ∀ (init : String → Bool) (k : String),
      (l.foldl (fun h e k => if k = e.hash then true else h k) init) k = true ↔
        k ∈ l.map Entry.hash ∨ init k = true := by
  induction l with
  | nil => intro init k; simp
  | cons e es ih =>
    intro init k
    simp only [List.foldl_cons]
    rw [ih]
    by_cases hk : k = e.hash
    · simp [hk]
    · simp [hk]

theorem buildHashSet_eq_true (l : List Entry) (k : String) :
    buildHashSet l k = true ↔ k ∈ l.map Entry.hash := by
  unfold buildHashSet
  rw [buildHashSet_aux]
  simp

theorem buildHashSet_eq_false (l : List Entry) (k : String) :
    buildHashSet l k = false ↔ k ∉ l.map Entry.hash := by
  rw [← buildHashSet_eq_true l k]
  cases h : buildHashSet l k <;> simp

theorem buildRevIdx_inner (e : Entry) :
    ∀ (ns : List String) (m : String → List Entry) (k : String) (x : Entry),
      x ∈ (ns.foldl (fun m a k => if k = a then m a ++ [e] else m k) m) k ↔
        x ∈ m k ∨ (x = e ∧ k ∈ ns) := by
  intro ns
  induction ns with
  | nil => intro m k x; simp
  | cons a ns' ih =>
    intro m k x
    simp only [List.foldl_cons]
    rw [ih]
    by_cases hk : k = a
    · subst hk
      simp only [eq_self_iff_true, if_true, List.mem_append, List.mem_singleton, List.mem_cons]
      tauto
    · simp only [if_neg hk, List.mem_cons]
      constructor
      · rintro (h | ⟨rfl, hin⟩)
        · exact Or.inl h
        · exact Or.inr ⟨rfl, Or.inr hin⟩
      · rintro (h | ⟨rfl, hin | hin⟩)
        · exact Or.inl h
        · exact absurd hin hk
        · exact Or.inr ⟨rfl, hin⟩

theorem buildRevIdx_aux (l : List Entry) :
    ∀ (init : String → List Entry) (k : String) (x : Entry),
      x ∈ (l.foldl
          (fun m e => e.next.foldl (fun m a k => if k = a then m a ++ [e] else m k) m) init) k ↔
        x ∈ init k ∨ (x ∈ l ∧ k ∈ x.next) := by
  induction l with
  | nil => intro init k x; simp
  | cons e es ih =>
    intro init k x
    simp only [List.foldl_cons]
    rw [ih, buildRevIdx_inner]
    constructor
    · rintro ((h | ⟨rfl, hk⟩) | ⟨hxes, hk⟩)
      · exact Or.inl h
      · exact Or.inr ⟨by simp, hk⟩
      · exact Or.inr ⟨by simp [hxes], hk⟩
    · rintro (h | ⟨hx, hk⟩)
      · exact Or.inl (Or.inl h)
      · rcases List.mem_cons.mp hx with rfl | hxes
        · exact Or.inl (Or.inr ⟨rfl, hk⟩)
        · exact Or.inr ⟨hxes, hk⟩

theorem buildRevIdx_mem (l : List Entry) (k : String) (x : Entry) :
    x ∈ buildRevIdx l k ↔ x ∈ l ∧ k ∈ x.next := by
  unfold buildRevIdx
  rw [buildRevIdx_aux]
  simp

theorem collectNexts_aux :
    ∀ (l : List Entry) (init : List String),
      l.foldl (fun acc e => acc ++ e.next) init = init ++ l.bind Entry.next := by
  intro l
  induction l with
  | nil => intro init; simp
  | cons e es ih =>
    intro init
    simp only [List.foldl_cons, List.cons_bind]
    rw [ih, List.append_assoc]

theorem mem_collectNexts (l : List Entry) (k : String) :
    k ∈ collectNexts l ↔ ∃ e ∈ l, k ∈ e.next := by
  unfold collectNexts
  rw [collectNexts_aux]
  simp [List.mem_bind]

theorem pushUnique_mem_iff {l res : List Entry} {e x : Entry}
    (hinj : ∀ a ∈ l, ∀ b ∈ l, a.hash = b.hash → a = b)
    (hres : ∀ y ∈ res, y ∈ l) (he : e ∈ l) :
    x ∈ pushUnique res e ↔ x ∈ res ∨ x = e := by
  unfold pushUnique
  cases hany : res.any (fun a => a.hash = e.hash) with
  | true =>
    obtain ⟨a, ha, hae⟩ := List.any_eq_true.mp hany
    have hae' : a = e := hinj a (hres a ha) e he (of_decide_eq_true hae)
    subst hae'
    simp only [if_true]
    constructor
    · exact Or.inl
    · rintro (h | rfl)
      · exact h
      · exact ha
  | false =>
    simp only [Bool.false_eq_true, if_false]
    simp

theorem pushUnique_subset {l res : List Entry} {e : Entry}
    (hres : ∀ y ∈ res, y ∈ l) (he : e ∈ l) :
    ∀ x ∈ pushUnique res e, x ∈ l := by
  intro x hx
  unfold pushUnique at hx
  by_cases hany : res.any (fun a => a.hash = e.hash)
  · rw [if_pos hany] at hx
    exact hres x hx
  · rw [if_neg hany] at hx
    rcases List.mem_append.mp hx with h | h
    · exact hres x h
    · rw [List.mem_singleton.mp h]
      exact he

theorem pushUnique_nodup {res : List Entry} {e : Entry} (hnd : res.Nodup) :
    (pushUnique res e).Nodup := by
  unfold pushUnique
  cases hany : res.any (fun a => a.hash = e.hash) with
  | true => exact hnd
  | false =>
    have he : e ∉ res := by
      intro hmem
      have : res.any (fun a => a.hash = e.hash) = true :=
        List.any_eq_true.mpr ⟨e, hmem, by simp⟩
      rw [hany] at this
      cases this
    simp only [Bool.false_eq_true, if_false]
    simp [List.nodup_append, hnd, he]

theorem foldPush_mem {l : List Entry}
    (hinj : ∀ a ∈ l, ∀ b ∈ l, a.hash = b.hash → a = b) :
    ∀ (es res : List Entry), (∀ x ∈ es, x ∈ l) → (∀ x ∈ res, x ∈ l) → ∀ x,
      (x ∈ es.foldl pushUnique res ↔ x ∈ res ∨ x ∈ es) := by
  intro es
  induction es with
  | nil => intro res _ _ x; simp
  | cons e es' ih =>
    intro res hes hres x
    simp only [List.foldl_cons]
    have he : e ∈ l := hes e (by simp)
    have hres' : ∀ y ∈ pushUnique res e, y ∈ l := pushUnique_subset hres he
    rw [ih (pushUnique res e) (fun y hy => hes y (List.mem_cons_of_mem e hy)) hres' x,
      pushUnique_mem_iff hinj hres he]
    simp only [List.mem_cons]
    tauto

theorem foldPush_nodup :
    ∀ (es res : List Entry), res.Nodup → (es.foldl pushUnique res).Nodup := by
  intro es
  induction es with
  | nil => intro res h; exact h
  | cons e es' ih =>
    intro res h
    exact ih (pushUnique res e) (pushUnique_nodup h)

theorem foldPush_subset {l : List Entry} :
    ∀ (es res : List Entry), (∀ x ∈ es, x ∈ l) → (∀ x ∈ res, x ∈ l) →
      ∀ x ∈ es.foldl pushUnique res, x ∈ l := by
  intro es
  induction es with
  | nil => intro res _ hres; exact hres
  | cons e es' ih =>
    intro res hes hres
    exact ih (pushUnique res e) (fun y hy => hes y (List.mem_cons_of_mem e hy))
      (pushUnique_subset hres (hes e (by simp)))

theorem outerPush_mem {l : List Entry}
    (hinj : ∀ a ∈ l, ∀ b ∈ l, a.hash = b.hash → a = b) :
    ∀ (ms : List String) (res : List Entry), (∀ x ∈ res, x ∈ l) → ∀ x,
      (x ∈ ms.foldl (fun res val => (buildRevIdx l val).foldl pushUnique res) res ↔
        x ∈ res ∨ ∃ val ∈ ms, x ∈ buildRevIdx l val) := by
  intro ms
  induction ms with
  | nil => intro res _ x; simp
  | cons val ms' ih =>
    intro res hres x
    simp only [List.foldl_cons]
    have hrev : ∀ y ∈ buildRevIdx l val, y ∈ l := by
      intro y hy
      exact ((buildRevIdx_mem l val y).mp hy).1
    have hres' : ∀ y ∈ (buildRevIdx l val).foldl pushUnique res, y ∈ l :=
      foldPush_subset _ _ hrev hres
    rw [ih _ hres' x, foldPush_mem hinj _ _ hrev hres x]
    simp only [List.mem_cons]
    constructor
    · rintro ((h | h) | ⟨v, hv, hx⟩)
      · exact Or.inl h
      · exact Or.inr ⟨val, Or.inl rfl, h⟩
      · exact Or.inr ⟨v, Or.inr hv, hx⟩
    · rintro (h | ⟨v, hv | hv, hx⟩)
      · exact Or.inl (Or.inl h)
      · exact Or.inl (Or.inr (hv ▸ hx))
      · exact Or.inr ⟨v, hv, hx⟩

theorem outerPush_nodup (l : List Entry) :
    ∀ (ms : List String) (res : List Entry), res.Nodup →
      (ms.foldl (fun res val => (buildRevIdx l val).foldl pushUnique res) res).Nodup := by
  intro ms
  induction ms with
  | nil => intro res h; exact h
  | cons val ms' ih =>
    intro res h
    exact ih _ (foldPush_nodup _ _ h)

theorem mem_findTailsMissing {l : List Entry}
    (hinj : ∀ a ∈ l, ∀ b ∈ l, a.hash = b.hash → a = b) (x : Entry) :
    x ∈ findTailsMissing l ↔ x ∈ l ∧ ∃ k ∈ x.next, k ∉ l.map Entry.hash := by
  unfold findTailsMissing
  rw [outerPush_mem hinj _ [] (by simp) x]
  simp only [List.not_mem_nil, false_or]
  constructor
  · rintro ⟨val, hval, hx⟩
    obtain ⟨hxl, hvx⟩ := (buildRevIdx_mem l val x).mp hx
    have hmiss : val ∉ l.map Entry.hash := by
      have := List.of_mem_filter hval
      exact (buildHashSet_eq_false l val).mp (by simpa using this)
    exact ⟨hxl, val, hvx, hmiss⟩
  · rintro ⟨hxl, k, hkx, hkm⟩
    refine ⟨k, ?_, (buildRevIdx_mem l k x).mpr ⟨hxl, hkx⟩⟩
    refine List.mem_filter.mpr ⟨?_, ?_⟩
    · exact (mem_collectNexts l k).mpr ⟨x, hxl, hkx⟩
    · simpa using (buildHashSet_eq_false l k).mpr hkm

theorem findTailsMissing_nodup (l : List Entry) : (findTailsMissing l).Nodup :=
  outerPush_nodup l _ [] (by simp)

theorem mem_findTails {l : List Entry}
    (hinj : ∀ a ∈ l, ∀ b ∈ l, a.hash = b.hash → a = b) (x : Entry) :
    x ∈ findTails l ↔
      (x ∈ l ∧ ∃ k ∈ x.next, k ∉ l.map Entry.hash) ∨ (x ∈ l ∧ x.next = []) := by
  unfold findTails
  rw [List.mem_append, mem_findTailsMissing hinj]
  constructor
  · rintro (h | h)
    · exact Or.inl h
    · obtain ⟨hxl, hlen⟩ := List.mem_filter.mp h
      exact Or.inr ⟨hxl, List.length_eq_zero.mp (by simpa using hlen)⟩
  · rintro (h | ⟨hxl, hnil⟩)
    · exact Or.inl h
    · exact Or.inr (List.mem_filter.mpr ⟨hxl, by simp [hnil]⟩)

theorem findTails_subset {l : List Entry}
    (hinj : ∀ a ∈ l, ∀ b ∈ l, a.hash = b.hash → a = b) :
    ∀ x ∈ findTails l, x ∈ l := by
  intro x hx
  rcases (mem_findTails hinj x).mp hx with h | h
  · exact h.1
  · exact h.1

theorem findTails_nodup {l : List Entry} (hnd : l.Nodup)
    (hinj : ∀ a ∈ l, ∀ b ∈ l, a.hash = b.hash → a = b) :
    (findTails l).Nodup := by
  unfold findTails
  refine List.Nodup.append (findTailsMissing_nodup l) (hnd.filter _) ?_
  intro x hx1 hx2
  obtain ⟨_, k, hk, _⟩ := (mem_findTailsMissing hinj x).mp hx1
  obtain ⟨_, hlen⟩ := List.mem_filter.mp hx2
  have : x.next = [] := List.length_eq_zero.mp (by simpa using hlen)
  rw [this] at hk
  cases hk

theorem findTails_perm {l l' : List Entry} (hperm : l'.Perm l)
    (hnd : (l.map Entry.hash).Nodup) :
    (findTails l').Perm (findTails l) := by
  have hinj : ∀ a ∈ l, ∀ b ∈ l, a.hash = b.hash → a = b := by
    intro a ha b hb
    exact List.inj_on_of_nodup_map hnd ha hb
  have hnd' : (l'.map Entry.hash).Nodup := ((hperm.map Entry.hash).symm.nodup) hnd
  have hinj' : ∀ a ∈ l', ∀ b ∈ l', a.hash = b.hash → a = b := by
    intro a ha b hb
    exact List.inj_on_of_nodup_map hnd' ha hb
  have hndl : l.Nodup := List.Nodup.of_map Entry.hash hnd
  have hndl' : l'.Nodup := List.Nodup.of_map Entry.hash hnd'
  unfold findTails
  refine List.Perm.append ?_ (hperm.filter _)
  refine (List.perm_ext_iff_of_nodup (findTailsMissing_nodup l') (findTailsMissing_nodup l)).mpr ?_
  intro x
  rw [mem_findTailsMissing hinj', mem_findTailsMissing hinj]
  constructor
  · rintro ⟨hxl, k, hk, hm⟩
    refine ⟨hperm.subset hxl, k, hk, ?_⟩
    intro hc
    exact hm ((hperm.map Entry.hash).mem_iff.mpr hc)
  · rintro ⟨hxl, k, hk, hm⟩
    refine ⟨hperm.symm.subset hxl, k, hk, ?_⟩
    intro hc
    exact hm ((hperm.map Entry.hash).mem_iff.mp hc)

end EntryCollection

/-! ## The sorting index under permutation -/

namespace EntryCollection

theorem smapOf_smap (m : List (Nat × String)) : smapOf (some (.smap m)) = m := rfl

theorem smapInsert_comm (k1 k2 : Nat) (v1 v2 : String) (hne : k1 ≠ k2) :
    ∀ m : List (Nat × String),
      smapInsert (smapInsert m k1 v1) k2 v2 = smapInsert (smapInsert m k2 v2) k1 v1 := by
  intro m
  induction m with
  | nil =>
    simp only [smapInsert]
    split_ifs <;> first | rfl | omega
  | cons p rest ih =>
    obtain ⟨k', v'⟩ := p
    simp only [smapInsert]
    split_ifs <;> (try simp only [smapInsert]) <;> (try split_ifs) <;>
      first | rfl | omega | (exact congrArg _ ih)

theorem id2key_processEntry (e : Entry) : id2key (processEntry e) = e.id := by
  simp [id2key, processEntry]

theorem addToIndex_apply {e : Entry} (hne : id2key e ≠ e.hash) (idx : IndexFun) (k : String) :
    addToIndex idx e k =
      if k = id2key e then
        some (.smap (smapInsert (smapOf (idx (id2key e))) e.seq e.hash))
      else if k = e.hash then some (.ent e) else idx k := by
  simp only [addToIndex]
  rw [if_neg hne]

theorem addToIndex_comm {x y : Entry}
    (hxx : id2key x ≠ x.hash) (hyy : id2key y ≠ y.hash)
    (hhash : x.hash ≠ y.hash)
    (hxk : id2key x ≠ y.hash) (hyk : id2key y ≠ x.hash)
    (hseq : id2key x = id2key y → x.seq ≠ y.seq)
    (idx : IndexFun) :
    addToIndex (addToIndex idx x) y = addToIndex (addToIndex idx y) x := by
  funext k
  simp only [addToIndex_apply hxx, addToIndex_apply hyy]
  by_cases h1 : k = id2key y <;> by_cases h2 : k = id2key x
  · have hkk : id2key y = id2key x := h1.symm.trans h2
    have hs : x.seq ≠ y.seq := hseq hkk.symm
    simp only [if_pos h1, if_pos h2, if_pos hkk, if_pos hkk.symm, smapOf_smap, hkk]
    exact congrArg (fun m => some (IndexVal.smap m)) (smapInsert_comm x.seq y.seq x.hash y.hash hs _)
  · have hky : ¬ id2key y = id2key x := fun hc => h2 (h1.trans hc)
    have h3 : ¬ k = x.hash := fun hc => hyk (h1.symm.trans hc)
    have h4 : ¬ k = y.hash := fun hc => hyy (h1.symm.trans hc)
    simp only [if_pos h1, if_neg h2, if_neg h3, if_neg h4, if_neg hky, if_neg hyk]
  · have hkx : ¬ id2key x = id2key y := fun hc => h1 (h2.trans hc)
    have h3 : ¬ k = y.hash := fun hc => hxk (h2.symm.trans hc)
    have h4 : ¬ k = x.hash := fun hc => hxx (h2.symm.trans hc)
    simp only [if_neg h1, if_pos h2, if_neg h3, if_neg h4, if_neg hkx, if_neg hxk]
  · by_cases h3 : k = x.hash <;> by_cases h4 : k = y.hash
    · exact absurd (h3.symm.trans h4) hhash
    · simp only [if_neg h1, if_neg h2, if_pos h3, if_neg h4]
    · simp only [if_neg h1, if_neg h2, if_neg h3, if_pos h4]
    · simp only [if_neg h1, if_neg h2, if_neg h3, if_neg h4]

theorem buildIndex_comm_of_mem {es : List Entry}
    (hA : (es.map Entry.hash).Nodup)
    (hB : ∀ f ∈ es, ∀ g ∈ es, id2key f ≠ g.hash)
    (hC : ∀ f ∈ es, ∀ g ∈ es, id2key f = id2key g → f.seq = g.seq → f = g) :
    ∀ x ∈ es, ∀ y ∈ es, ∀ z : IndexFun,
      addToIndex (addToIndex z x) y = addToIndex (addToIndex z y) x := by
  intro x hx y hy z
  by_cases hxy : x = y
  · rw [hxy]
  · have hhash : x.hash ≠ y.hash := fun hc =>
      hxy (List.inj_on_of_nodup_map hA hx hy hc)
    have hseq : id2key x = id2key y → x.seq ≠ y.seq := fun hk hs =>
      hxy (hC x hx y hy hk hs)
    exact addToIndex_comm (hB x hx x hx) (hB y hy y hy) hhash
      (hB x hx y hy) (hB y hy x hx) hseq z

theorem buildIndex_perm {es es' : List Entry} (hperm : es'.Perm es)
    (hA : (es.map Entry.hash).Nodup)
    (hB : ∀ f ∈ es, ∀ g ∈ es, id2key f ≠ g.hash)
    (hC : ∀ f ∈ es, ∀ g ∈ es, id2key f = id2key g → f.seq = g.seq → f = g) :
    buildIndex es' = buildIndex es := by
  unfold buildIndex
  refine hperm.foldl_eq' ?_ _
  intro x hx y hy z
  exact buildIndex_comm_of_mem hA hB hC x (hperm.subset hx) y (hperm.subset hy) z

theorem foldIndex_frame :
    ∀ (l : List Entry) (idx : IndexFun) (h : String),
      (∀ f ∈ l, id2key f ≠ f.hash ∧ f.hash ≠ h ∧ id2key f ≠ h) →
      (l.foldl addToIndex idx) h = idx h := by
  intro l
  induction l with
  | nil => intro idx h _; rfl
  | cons f l' ih =>
    intro idx h hl
    obtain ⟨hff, hfh, hkh⟩ := hl f (by simp)
    simp only [List.foldl_cons]
    rw [ih _ h (fun g hg => hl g (List.mem_cons_of_mem f hg))]
    rw [addToIndex_apply hff]
    rw [if_neg (fun hc : h = id2key f => hkh hc.symm), if_neg (fun hc : h = f.hash => hfh hc.symm)]

theorem foldIndex_lookup :
    ∀ (l : List Entry) (idx : IndexFun),
      (l.map Entry.hash).Nodup →
      (∀ f ∈ l, ∀ g ∈ l, id2key f ≠ g.hash) →
      ∀ e ∈ l, (l.foldl addToIndex idx) e.hash = some (.ent e) := by
  intro l
  induction l with
  | nil => intro idx _ _ e he; cases he
  | cons f l' ih =>
    intro idx hA hB e he
    simp only [List.map_cons, List.nodup_cons] at hA
    obtain ⟨hfh, hA'⟩ := hA
    simp only [List.foldl_cons]
    rcases List.mem_cons.mp he with rfl | he'
    · rw [foldIndex_frame l' _ e.hash ?frame]
      case frame =>
        intro g hg
        have hgl : g ∈ e :: l' := List.mem_cons_of_mem e hg
        refine ⟨hB g hgl g hgl, ?_, hB g hgl e (by simp)⟩
        intro hc
        exact hfh (hc ▸ List.mem_map_of_mem Entry.hash hg)
      rw [addToIndex_apply (hB e (by simp) e (by simp))]
      rw [if_neg (fun hc : e.hash = id2key e => (hB e (by simp) e (by simp)) hc.symm)]
      rw [if_pos rfl]
    · exact ih _ hA' (fun a ha b hb =>
        hB a (List.mem_cons_of_mem f ha) b (List.mem_cons_of_mem f hb)) e he'

theorem buildIndex_lookup {es : List Entry}
    (hA : (es.map Entry.hash).Nodup)
    (hB : ∀ f ∈ es, ∀ g ∈ es, id2key f ≠ g.hash) :
    ∀ e ∈ es, buildIndex es e.hash = some (.ent e) :=
  foldIndex_lookup es _ hA hB

end EntryCollection

/-! ## Sort is a function of the entry set -/

theorem filterMap_if_eq_filter (p : α → Bool) :
    ∀ l : List α, l.filterMap (fun e => if p e then some e else none) = l.filter p := by
  intro l
  induction l with
  | nil => rfl
  | cons x xs ih =>
    by_cases hx : p x
    · simp [List.filterMap_cons, List.filter_cons, hx, ih]
    · simp [List.filterMap_cons, List.filter_cons, hx, ih]

namespace EntryCollection

theorem findSiblings_eq {es es' : List Entry} (hperm : es'.Perm es)
    (hA : (es.map Entry.hash).Nodup)
    (hC : ∀ f ∈ es, ∀ g ∈ es, f.id = g.id → f.seq = g.seq → f = g) (e : Entry) :
    Entry.findSiblings e es' = Entry.findSiblings e es := by
  unfold Entry.findSiblings
  have hg1 : (fun a b : Entry => jsStrLt a.id b.id)
      = keyCmp (fun x : Entry => OrderDual.toDual x.id) := by
    funext a b
    unfold keyCmp
    refine JsSortLemmas.bool_eq_decide _ ?_
    rw [jsStrLt_eq_true_iff]
    exact (OrderDual.toDual_lt_toDual).symm
  have hg2 : (fun a b : Entry => decide (a.seq < b.seq))
      = keyCmp (fun x : Entry => OrderDual.toDual x.seq) := by
    funext a b
    unfold keyCmp
    refine JsSortLemmas.bool_eq_decide _ ?_
    rw [decide_eq_true_eq]
    exact (OrderDual.toDual_lt_toDual).symm
  rw [hg1, hg2]
  rw [filterMap_if_eq_filter, filterMap_if_eq_filter]
  refine JsSortLemmas.jsSort2_eq_of_perm _ _ (hperm.filter _) ?_ ?_
  · exact (List.Nodup.of_map Entry.hash hA).filter _
  · intro x hx y hy h1 h2
    have hx' : x ∈ es := List.mem_of_mem_filter hx
    have hy' : y ∈ es := List.mem_of_mem_filter hy
    exact hC x hx' y hy' (by simpa using h1) (by simpa using h2)

theorem sortTails_eq {es es' : List Entry} (hperm : es'.Perm es)
    (hA : (es.map Entry.hash).Nodup)
    (hB : ∀ f ∈ es, ∀ g ∈ es, id2key f ≠ g.hash)
    (hC : ∀ f ∈ es, ∀ g ∈ es, f.id = g.id → f.seq = g.seq → f = g) :
    sortTails (buildIndex es) es' = sortTails (buildIndex es) es := by
  have hinj : ∀ a ∈ es, ∀ b ∈ es, a.hash = b.hash → a = b := by
    intro a ha b hb
    exact List.inj_on_of_nodup_map hA ha hb
  have hA' : (es'.map Entry.hash).Nodup := ((hperm.map Entry.hash).symm.nodup) hA
  have hinj' : ∀ a ∈ es', ∀ b ∈ es', a.hash = b.hash → a = b := by
    intro a ha b hb
    exact List.inj_on_of_nodup_map hA' ha hb
  have hlook : ∀ a ∈ es, buildIndex es a.hash = some (.ent a) := buildIndex_lookup hA hB
  have hcmpId : ∀ (t : List Entry), (∀ a ∈ t, a ∈ es) →
      jsSort (tailIdCmp (buildIndex es)) t = jsSort (keyCmp Entry.id) t := by
    intro t ht
    refine JsSortLemmas.jsSort_congr ?_
    intro a ha b hb
    rw [tailIdCmp, hlook a (ht a ha), hlook b (ht b hb)]
    unfold keyCmp
    refine JsSortLemmas.bool_eq_decide _ ?_
    exact jsStrLt_eq_true_iff b.id a.id
  have hcmpSeq : ∀ (t : List Entry), (∀ a ∈ t, a ∈ es) →
      jsSort (tailSeqCmp (buildIndex es)) t = jsSort (keyCmp Entry.seq) t := by
    intro t ht
    refine JsSortLemmas.jsSort_congr ?_
    intro a ha b hb
    rw [tailSeqCmp, hlook a (ht a ha), hlook b (ht b hb)]
    unfold keyCmp
    refine JsSortLemmas.bool_eq_decide _ ?_
    rw [decide_eq_true_eq]
  have htsub : ∀ a ∈ findTails es, a ∈ es := findTails_subset hinj
  have htsub' : ∀ a ∈ findTails es', a ∈ es := fun a ha =>
    hperm.subset (findTails_subset hinj' a ha)
  unfold sortTails
  rw [hcmpId _ htsub', hcmpId _ htsub]
  rw [hcmpSeq _ (fun a ha => htsub' a ((JsSortLemmas.jsSort_perm _ _).subset ha))]
  rw [hcmpSeq _ (fun a ha => htsub a ((JsSortLemmas.jsSort_perm _ _).subset ha))]
  refine JsSortLemmas.jsSort2_eq_of_perm Entry.id Entry.seq
    (findTails_perm hperm hA) (findTails_nodup (List.Nodup.of_map Entry.hash hA) hinj) ?_
  intro x hx y hy h1 h2
  exact hC x (htsub x hx) y (htsub y hy) h1 h2

end EntryCollection

/-- C3 counterexample.  Two distinct entries sharing id "A" and seq 0 (a
valid DAG over content-addressed entries: two isolated nodes with distinct
digests): sorting them in the two possible input orders returns different
sequences, because the chain-map key `(id, seq)` collides and the tail order
falls back to input order. -/
theorem sort_order_dependent_counterexample :
    ([ceQ, ceP].Perm [ceP, ceQ]) ∧
      EntryCollection.sort [ceQ, ceP] ≠ EntryCollection.sort [ceP, ceQ] := by
  constructor
  · decide
  · decide

/-- C3 amended.  For every set of content-addressed entries with pairwise
distinct digests, ids disjoint from digests, and no two entries sharing both
id and seq, `sort` depends only on the entry set: sorting any permutation of
the input returns the same sequence.  (The counterexample forces the
uniqueness of `(id, seq)` pairs; distinct digests and id/digest disjointness
are the content-addressing assumptions the single index object of the
implementation relies on.) -/
theorem sort_perm_invariant (E E' : List Entry)
    (hperm : E'.Perm E)
    (hhash : (E.map Entry.hash).Nodup)
    (hdisj : ∀ e ∈ E, ∀ f ∈ E, e.id ≠ f.hash)
    (huniq : ∀ e ∈ E, ∀ f ∈ E, e.id = f.id → e.seq = f.seq → e = f) :
    EntryCollection.sort E' = EntryCollection.sort E := by
  have hpe : (E'.map EntryCollection.processEntry).Perm (E.map EntryCollection.processEntry) :=
    hperm.map _
  have hA : ((E.map EntryCollection.processEntry).map Entry.hash).Nodup := by
    rw [List.map_map]
    exact hhash
  have hB : ∀ f ∈ E.map EntryCollection.processEntry,
      ∀ g ∈ E.map EntryCollection.processEntry, EntryCollection.id2key f ≠ g.hash := by
    intro f hf g hg
    obtain ⟨a, ha, rfl⟩ := List.mem_map.mp hf
    obtain ⟨b, hb, rfl⟩ := List.mem_map.mp hg
    rw [EntryCollection.id2key_processEntry]
    exact hdisj a ha b hb
  have hCid : ∀ f ∈ E.map EntryCollection.processEntry,
      ∀ g ∈ E.map EntryCollection.processEntry, f.id = g.id → f.seq = g.seq → f = g := by
    intro f hf g hg h1 h2
    obtain ⟨a, ha, rfl⟩ := List.mem_map.mp hf
    obtain ⟨b, hb, rfl⟩ := List.mem_map.mp hg
    exact congrArg EntryCollection.processEntry (huniq a ha b hb h1 h2)
  have hCkey : ∀ f ∈ E.map EntryCollection.processEntry,
      ∀ g ∈ E.map EntryCollection.processEntry,
      EntryCollection.id2key f = EntryCollection.id2key g → f.seq = g.seq → f = g := by
    intro f hf g hg h1 h2
    obtain ⟨a, ha, rfl⟩ := List.mem_map.mp hf
    obtain ⟨b, hb, rfl⟩ := List.mem_map.mp hg
    rw [EntryCollection.id2key_processEntry, EntryCollection.id2key_processEntry] at h1
    exact congrArg EntryCollection.processEntry (huniq a ha b hb h1 h2)
  have hidx : EntryCollection.buildIndex (E'.map EntryCollection.processEntry)
      = EntryCollection.buildIndex (E.map EntryCollection.processEntry) :=
    EntryCollection.buildIndex_perm hpe hA hB hCkey
  have hsib : (fun e => Entry.findSiblings e (E'.map EntryCollection.processEntry))
      = (fun e => Entry.findSiblings e (E.map EntryCollection.processEntry)) :=
    funext (fun e => EntryCollection.findSiblings_eq hpe hA hCid e)
  have htails :
      EntryCollection.sortTails
          (EntryCollection.buildIndex (E'.map EntryCollection.processEntry))
          (E'.map EntryCollection.processEntry)
        = EntryCollection.sortTails
            (EntryCollection.buildIndex (E.map EntryCollection.processEntry))
            (E.map EntryCollection.processEntry) := by
    rw [hidx]
    exact EntryCollection.sortTails_eq hpe hA hB hCid
  have hlen : E'.length = E.length := hperm.length_eq
  simp only [EntryCollection.sort]
  rw [hsib, htails, hidx, hlen]

/-- C3 witness for the amended statement: two entries on chains "A" and "B",
sorted in both input orders. -/
theorem sort_perm_invariant_witness :
    ([ceR, ceP].Perm [ceP, ceR]) ∧
      (([ceP, ceR].map Entry.hash).Nodup) ∧
      (∀ e ∈ [ceP, ceR], ∀ f ∈ [ceP, ceR], e.id ≠ f.hash) ∧
      (∀ e ∈ [ceP, ceR], ∀ f ∈ [ceP, ceR], e.id = f.id → e.seq = f.seq → e = f) ∧
      EntryCollection.sort [ceR, ceP] = EntryCollection.sort [ceP, ceR] :=
  ⟨by decide, by decide, by decide, by decide,
    sort_perm_invariant [ceP, ceR] [ceR, ceP] (by decide) (by decide) (by decide) (by decide)⟩
